import Mathlib

/-!
Verification of the retrieval-augmented-generation core of the
`AAIDC-MODULE-3-multiagent-repo-app-` repository: the chunker, the embedding
provider with its fallback chain, the vector-index collection management, the
batched ingestion (`add_texts`), the retry policy (`utils/resilience.py`) and
the query engine (`agents/qa_agent.py`), shallowly embedded in Lean.
-/

namespace RepoApp

/-! ## Configuration (`src/config/config.py`)

`EMBEDDING_DIM = int(os.getenv("EMBEDDING_DIM", "1024"))` and
`QDRANT_COLLECTION = os.getenv("QDRANT_COLLECTION", "repo_chunks")`.
We model the default values (no environment overrides). -/

def EMBEDDING_DIM : ℕ := 1024

def QDRANT_COLLECTION : String := "repo_chunks"

/-! ## Exceptions

Python exception classes relevant to the retry policy in
`src/utils/resilience.py`: `requests.exceptions.RequestException` and
`TimeoutError` are the transient classes; anything else (e.g. an
authentication error) is non-transient. -/

inductive Exc where
  | requestException : Exc
  | timeoutError : Exc
  | authError : Exc
  | otherError : ℕ → Exc
deriving DecidableEq, Repr

/-- `retry_if_exception_type((requests.exceptions.RequestException, TimeoutError))`:
exactly the two transient classes are retried. -/
def isTransient : Exc → Bool
  | Exc.requestException => true
  | Exc.timeoutError => true
  | _ => false

/-! ## Chunker (`src/tools/text_splitter.py`)

`split_text(text, chunk_size=800, chunk_overlap=100)` delegates to
`langchain_text_splitters.RecursiveCharacterTextSplitter`, whose code is a
third-party dependency not present in this repository.

Modelled from the spec: the spec's Chunker contract (§4.1) — fixed-size
chunks over the input text, each chunk after the first overlapping the tail
of the previous chunk by exactly `overlap` characters, empty text yielding an
empty sequence, and text of length at most `chunk_size` yielding one chunk.
The sliding window advances by `chunk_size - overlap` characters. Texts are
lists of characters. The `cs ≤ ov` disjunct of the guard only handles the
degenerate configuration excluded by the spec's input constraint
`overlap < chunkSize` (it makes the recursion total). -/

def splitGo (cs ov : ℕ) (t : List Char) : List (List Char) :=
  if t.length ≤ cs ∨ cs ≤ ov then [t]
  else t.take cs :: splitGo cs ov (t.drop (cs - ov))
termination_by t.length
decreasing_by
  rename_i h
  push_neg at h
  simp only [List.length_drop]
  omega

def split_text (t : List Char) (cs : ℕ := 800) (ov : ℕ := 100) : List (List Char) :=
  if t = [] then [] else splitGo cs ov t

/-- Undo the overlap: keep the first chunk whole, drop the first `ov`
characters of every later chunk, and concatenate. -/
def reconstruct (ov : ℕ) : List (List Char) → List Char
  | [] => []
  | c :: rest => c ++ (rest.map (List.drop ov)).flatten

theorem splitGo_stop (cs ov : ℕ) (t : List Char) (h : t.length ≤ cs ∨ cs ≤ ov) :
    splitGo cs ov t = [t] := by
  rw [splitGo, if_pos h]

theorem splitGo_step (cs ov : ℕ) (t : List Char) (h : ¬ (t.length ≤ cs ∨ cs ≤ ov)) :
    splitGo cs ov t = t.take cs :: splitGo cs ov (t.drop (cs - ov)) := by
  rw [splitGo, if_neg h]

theorem splitGo_ne_nil (cs ov : ℕ) (t : List Char) : splitGo cs ov t ≠ [] := by
  by_cases h : t.length ≤ cs ∨ cs ≤ ov
  · rw [splitGo_stop cs ov t h]; simp
  · rw [splitGo_step cs ov t h]; simp

theorem splitGo_infix (cs ov : ℕ) : ∀ (n : ℕ) (t : List Char), t.length ≤ n →
    ∀ c ∈ splitGo cs ov t, c <:+: t := by
  intro n
  induction n with
  | zero =>
    intro t ht c hc
    have h0 : t.length ≤ cs ∨ cs ≤ ov := Or.inl (by omega)
    rw [splitGo_stop cs ov t h0] at hc
    simp only [List.mem_singleton] at hc
    rw [hc]
  | succ n ih =>
    intro t ht c hc
    by_cases h : t.length ≤ cs ∨ cs ≤ ov
    · rw [splitGo_stop cs ov t h] at hc
      simp only [List.mem_singleton] at hc
      rw [hc]
    · rw [splitGo_step cs ov t h] at hc
      push_neg at h
      rcases List.mem_cons.1 hc with hc0 | hc1
      · subst hc0
        exact (List.take_prefix cs t).isInfix
      · have hlen : (t.drop (cs - ov)).length ≤ n := by
          simp only [List.length_drop]; omega
        exact (ih (t.drop (cs - ov)) hlen c hc1).trans
          (List.drop_suffix (cs - ov) t).isInfix

theorem splitGo_head_ge (cs ov : ℕ) (hov : ov < cs) (u : List Char)
    (hu : ov ≤ u.length) : ∀ c M, splitGo cs ov u = c :: M → ov ≤ c.length := by
  intro c M hCM
  by_cases h : u.length ≤ cs ∨ cs ≤ ov
  · rw [splitGo_stop cs ov u h] at hCM
    injection hCM with h1 _
    subst h1; exact hu
  · rw [splitGo_step cs ov u h] at hCM
    push_neg at h
    injection hCM with h1 _
    subst h1
    simp only [List.length_take]
    omega

theorem splitGo_reconstruct (cs ov : ℕ) (hov : ov < cs) :
    ∀ (n : ℕ) (t : List Char), t.length ≤ n →
    reconstruct ov (splitGo cs ov t) = t := by
  intro n
  induction n with
  | zero =>
    intro t ht
    rw [splitGo_stop cs ov t (Or.inl (by omega))]
    simp [reconstruct]
  | succ n ih =>
    intro t ht
    by_cases h : t.length ≤ cs ∨ cs ≤ ov
    · rw [splitGo_stop cs ov t h]
      simp [reconstruct]
    · rw [splitGo_step cs ov t h]
      push_neg at h
      set u := t.drop (cs - ov) with hu
      have hulen : u.length = t.length - (cs - ov) := by
        rw [hu]; simp
      have hun : u.length ≤ n := by omega
      have hIH : reconstruct ov (splitGo cs ov u) = u := ih u hun
      obtain ⟨c, M, hCM⟩ := List.exists_cons_of_ne_nil (splitGo_ne_nil cs ov u)
      have hc_ge : ov ≤ c.length :=
        splitGo_head_ge cs ov hov u (by omega) c M hCM
      rw [hCM] at hIH
      simp only [reconstruct] at hIH
      simp only [reconstruct, hCM, List.map_cons, List.flatten_cons]
      have hdrop : List.drop ov c ++ (M.map (List.drop ov)).flatten
          = List.drop ov u := by
        rw [← hIH, List.drop_append_eq_append_drop]
        have : ov - c.length = 0 := by omega
        rw [this, List.drop_zero]
      rw [hdrop, hu, List.drop_drop]
      have : cs - ov + ov = cs := by omega
      rw [this, List.take_append_drop]

theorem splitGo_overlap (cs ov : ℕ) (hov : ov < cs) :
    ∀ (n : ℕ) (t : List Char), t.length ≤ n →
    ∀ i : ℕ, i + 1 < (splitGo cs ov t).length →
      ((splitGo cs ov t).getD (i + 1) []).take ov
        = ((splitGo cs ov t).getD i []).drop
            (((splitGo cs ov t).getD i []).length - ov) := by
  intro n
  induction n with
  | zero =>
    intro t ht i hi
    rw [splitGo_stop cs ov t (Or.inl (by omega))] at hi
    simp at hi
  | succ n ih =>
    intro t ht i hi
    by_cases h : t.length ≤ cs ∨ cs ≤ ov
    · rw [splitGo_stop cs ov t h] at hi
      simp at hi
    · push_neg at h
      set u := t.drop (cs - ov) with hu
      have hulen : u.length = t.length - (cs - ov) := by
        rw [hu]; simp
      have hun : u.length ≤ n := by omega
      have hstep : splitGo cs ov t = t.take cs :: splitGo cs ov u :=
        splitGo_step cs ov t (by omega)
      rcases i with _ | j
      · -- first pair: head is `t.take cs` (length exactly `cs`), the second
        -- chunk starts with the last `ov` characters of the head
        have hlen_take : (t.take cs).length = cs := by
          simp only [List.length_take]; omega
        obtain ⟨c, M, hCM⟩ := List.exists_cons_of_ne_nil (splitGo_ne_nil cs ov u)
        rw [hstep]
        simp only [List.getD_cons_succ, List.getD_cons_zero, hCM, hlen_take]
        have hrhs : (t.take cs).drop (cs - ov) = u.take ov := by
          rw [hu, List.drop_take]
          congr 1
          omega
        rw [hrhs]
        by_cases hcase : u.length ≤ cs ∨ cs ≤ ov
        · rw [splitGo_stop cs ov u hcase] at hCM
          injection hCM with h1 _
          rw [← h1]
        · rw [splitGo_step cs ov u hcase] at hCM
          injection hCM with h1 _
          rw [← h1, List.take_take]
          congr 1
          omega
      · -- later pairs: both chunks live in the recursive call on `u`
        have hi2 : j + 1 < (splitGo cs ov u).length := by
          rw [hstep] at hi
          simpa using hi
        have := ih u hun j hi2
        rw [hstep]
        simpa only [List.getD_cons_succ] using this

/-- C4: for every text longer than the chunk size, with overlap smaller than
the chunk size, `split_text` returns at least two chunks; every chunk is a
substring (contiguous infix) of the input; each chunk after the first starts
with exactly the last `ov` characters of the previous chunk; and dropping the
overlaps and concatenating reconstructs the input exactly, with no characters
dropped or duplicated. -/
theorem c4_split_text_properties (t : List Char) (cs ov : ℕ)
    (hov : ov < cs) (hlen : cs < t.length) :
    2 ≤ (split_text t cs ov).length
    ∧ (∀ c ∈ split_text t cs ov, c <:+: t)
    ∧ (∀ i : ℕ, i + 1 < (split_text t cs ov).length →
        ((split_text t cs ov).getD (i + 1) []).take ov
          = ((split_text t cs ov).getD i []).drop
              (((split_text t cs ov).getD i []).length - ov))
    ∧ reconstruct ov (split_text t cs ov) = t := by
  have htne : t ≠ [] := by
    intro h0
    rw [h0] at hlen
    simp at hlen
  have hsplit : split_text t cs ov = splitGo cs ov t := by
    rw [split_text, if_neg htne]
  refine ⟨?_, ?_, ?_, ?_⟩
  · rw [hsplit, splitGo_step cs ov t (by omega)]
    obtain ⟨a, M, hM⟩ :=
      List.exists_cons_of_ne_nil (splitGo_ne_nil cs ov (t.drop (cs - ov)))
    rw [hM]
    simp
  · rw [hsplit]
    exact splitGo_infix cs ov t.length t le_rfl
  · rw [hsplit]
    exact splitGo_overlap cs ov hov t.length t le_rfl
  · rw [hsplit]
    exact splitGo_reconstruct cs ov hov t.length t le_rfl

/-- C4 witness: the properties instantiated on the concrete text "abcde" with
chunk size 3 and overlap 1 (chunks "abc" and "cde"). -/
theorem c4_witness :
    2 ≤ (split_text "abcde".toList 3 1).length
    ∧ (∀ c ∈ split_text "abcde".toList 3 1, c <:+: "abcde".toList)
    ∧ (∀ i : ℕ, i + 1 < (split_text "abcde".toList 3 1).length →
        ((split_text "abcde".toList 3 1).getD (i + 1) []).take 1
          = ((split_text "abcde".toList 3 1).getD i []).drop
              (((split_text "abcde".toList 3 1).getD i []).length - 1))
    ∧ reconstruct 1 (split_text "abcde".toList 3 1) = "abcde".toList :=
  c4_split_text_properties "abcde".toList 3 1 (by decide) (by decide)

/-- C5 (amended): for every NON-EMPTY text of length at most the chunk size,
`split_text` returns exactly one chunk equal to the text; in particular the
19-character scenario text with chunk size 800 is returned whole, trailing
newline included. (For the empty text the chunker returns the empty list, per
the spec's §4.1 input contract.) -/
theorem c5_single_chunk :
    (∀ (t : List Char) (cs ov : ℕ), t ≠ [] → t.length ≤ cs →
      split_text t cs ov = [t])
    ∧ split_text "print(1)\nprint(2)\n".toList 800 100
        = ["print(1)\nprint(2)\n".toList] := by
  have hgen : ∀ (t : List Char) (cs ov : ℕ), t ≠ [] → t.length ≤ cs →
      split_text t cs ov = [t] := by
    intro t cs ov htne hlen
    rw [split_text, if_neg htne, splitGo_stop cs ov t (Or.inl hlen)]
  exact ⟨hgen, hgen _ 800 100 (by decide) (by decide)⟩

/-- C5 witness: the general single-chunk clause applied to the concrete text
"ab" with chunk size 5. -/
theorem c5_witness : split_text "ab".toList 5 2 = ["ab".toList] :=
  c5_single_chunk.1 "ab".toList 5 2 (by decide) (by decide)

/-- C5 counterexample: the claim quantifies over every string with
`len(t) <= chunkSize`, but for the empty string the chunker returns the empty
list, not a single (empty) chunk equal to the input. -/
theorem c5_counterexample :
    split_text [] 800 100 = [] ∧ split_text [] 800 100 ≠ [[]] := by
  have h : split_text [] 800 100 = [] := by
    rw [split_text, if_pos rfl]
  refine ⟨h, ?_⟩
  rw [h]
  simp

/-! ## Embedding provider (`EmbeddingAgent._embed_with_jina`,
`src/agents/embedding_agent.py`)

Despite its docstring ("Call Jina embeddings API with fallback to local
embeddings"), both the primary path and the `except` fallback path run the
same in-process model, `SentenceTransformer("all-MiniLM-L6-v2").encode`; if
both attempts raise, the function returns `len(texts)` copies of the
placeholder `[float(i % 100) / 100.0 for i in range(self.dim)]`. The
in-process model is external code, modelled as an oracle `encode` that either
returns the batch of vectors or raises; both attempts consult the same
oracle. Vector entries are modelled as rationals. -/

def dummy_emb : List ℚ :=
  (List.range EMBEDDING_DIM).map fun i => ((i % 100 : ℕ) : ℚ) / 100

def embed_with_jina (encode : List String → Except Exc (List (List ℚ)))
    (texts : List String) : List (List ℚ) :=
  match encode texts with
  | Except.ok v => v
  | Except.error _ =>
    match encode texts with
    | Except.ok v => v
    | Except.error _ => List.replicate texts.length dummy_emb

/-- C1: evaluation at the failing input `["x"]`: when the in-process model
succeeds and returns its own 384-dimensional vector (the actual output width
of `all-MiniLM-L6-v2`), `_embed_with_jina` passes it through unchecked, so
the returned vector does not have the configured `EMBEDDING_DIM = 1024`; the
code enforces the configured dimensionality only on the placeholder path. -/
theorem c1_dimension_unchecked :
    (embed_with_jina (fun _ => Except.ok [List.replicate 384 (0 : ℚ)])
        ["x"]).length = 1
    ∧ ∀ v ∈ embed_with_jina (fun _ => Except.ok [List.replicate 384 (0 : ℚ)])
        ["x"], v.length = 384 ∧ v.length ≠ EMBEDDING_DIM := by
  have hev : embed_with_jina (fun _ => Except.ok [List.replicate 384 (0 : ℚ)])
      ["x"] = [List.replicate 384 (0 : ℚ)] := rfl
  constructor
  · rw [hev]
    rfl
  · intro v hv
    rw [hev, List.mem_singleton] at hv
    rw [hv]
    refine ⟨by rw [List.length_replicate], ?_⟩
    rw [List.length_replicate]
    decide

/-- C8: when every embedding strategy fails (the encode oracle raises, on
both attempts), `_embed_with_jina` returns one placeholder vector per input,
identical for all inputs in the batch: its length is the configured
`EMBEDDING_DIM` and entry `i` equals `(i mod 100) / 100`. The result depends
only on the number of texts, never on their contents — the function is pure,
hence identical across runs. -/
theorem c8_placeholder_fallback
    (encode : List String → Except Exc (List (List ℚ)))
    (texts : List String) (e : Exc)
    (hfail : encode texts = Except.error e) :
    embed_with_jina encode texts = List.replicate texts.length dummy_emb
    ∧ (∀ v ∈ embed_with_jina encode texts, v = dummy_emb)
    ∧ dummy_emb.length = EMBEDDING_DIM
    ∧ (∀ i : ℕ, i < EMBEDDING_DIM →
        dummy_emb.getD i 0 = ((i % 100 : ℕ) : ℚ) / 100) := by
  have hres : embed_with_jina encode texts
      = List.replicate texts.length dummy_emb := by
    simp [embed_with_jina, hfail]
  refine ⟨hres, ?_, ?_, ?_⟩
  · intro v hv
    rw [hres] at hv
    exact List.eq_of_mem_replicate hv
  · simp [dummy_emb]
  · intro i hi
    simp [dummy_emb, List.getD_eq_getElem?_getD, List.getElem?_map,
      List.getElem?_range hi]

/-- C8 witness: the placeholder conclusion instantiated on the singleton
batch `["x"]` with an always-failing encoder. -/
theorem c8_witness :
    embed_with_jina (fun _ => Except.error Exc.timeoutError) ["x"]
      = List.replicate 1 dummy_emb
    ∧ (∀ v ∈ embed_with_jina (fun _ => Except.error Exc.timeoutError) ["x"],
        v = dummy_emb)
    ∧ dummy_emb.length = EMBEDDING_DIM
    ∧ (∀ i : ℕ, i < EMBEDDING_DIM →
        dummy_emb.getD i 0 = ((i % 100 : ℕ) : ℚ) / 100) :=
  c8_placeholder_fallback (fun _ => Except.error Exc.timeoutError) ["x"]
    Exc.timeoutError rfl

/-! ## Retry policy (`src/utils/resilience.py`)

`api_retry = retry(stop=stop_after_attempt(3),
wait=wait_exponential(multiplier=1, min=4, max=10),
retry=retry_if_exception_type((requests.exceptions.RequestException,
TimeoutError)), before_sleep=log_retry_attempt, reraise=True)`.

The decorated call is modelled by an oracle `f` giving the outcome of the
n-th attempt (attempts numbered from 1). The loop returns the final outcome
paired with the number of attempts actually made. -/

def apiRetryGo (f : ℕ → Except Exc α) : ℕ → ℕ → Except Exc α × ℕ
  | attempt, remaining =>
    match f attempt, remaining with
    | Except.ok v, _ => (Except.ok v, attempt)
    | Except.error e, 0 => (Except.error e, attempt)
    | Except.error e, r + 1 =>
      if isTransient e then apiRetryGo f (attempt + 1) r
      else (Except.error e, attempt)

def api_retry (f : ℕ → Except Exc α) : Except Exc α × ℕ :=
  apiRetryGo f 1 2

/-- `wait_exponential(multiplier=1, min=4, max=10)`: the wait (in seconds)
scheduled after the n-th failed attempt. -/
def wait_exponential (n : ℕ) : ℕ := max 4 (min (2 ^ (n - 1)) 10)

theorem apiRetryGo_attempts_le (f : ℕ → Except Exc α) :
    ∀ (r a : ℕ), (apiRetryGo f a r).2 ≤ a + r := by
  intro r
  induction r with
  | zero =>
    intro a
    cases hfa : f a <;> simp [apiRetryGo, hfa]
  | succ r ih =>
    intro a
    cases hfa : f a with
    | ok v => simp [apiRetryGo, hfa]
    | error e =>
      by_cases ht : isTransient e
      · have hih := ih (a + 1)
        simp [apiRetryGo, hfa, ht]
        omega
      · simp [apiRetryGo, hfa, ht]

/-- C7: the retry policy retries only when the exception is a transient
request exception or a timeout; any other exception is re-raised immediately
after the first attempt; at most 3 attempts are ever made; when three
transient failures exhaust the attempts, the final exception is re-raised;
the scheduled waits are nondecreasing and capped at 10; and the decorated
embedding call, whose fallback chain makes it total, completes on its first
attempt instead of propagating a failure. -/
theorem c7_api_retry_policy :
    (∀ (f : ℕ → Except Exc (List (List ℚ))) (e : Exc),
        f 1 = Except.error e → isTransient e = false →
        api_retry f = (Except.error e, 1))
    ∧ (∀ f : ℕ → Except Exc (List (List ℚ)), (api_retry f).2 ≤ 3)
    ∧ (∀ (f : ℕ → Except Exc (List (List ℚ))) (e1 e2 e3 : Exc),
        f 1 = Except.error e1 → f 2 = Except.error e2 →
        f 3 = Except.error e3 →
        isTransient e1 = true → isTransient e2 = true →
        api_retry f = (Except.error e3, 3))
    ∧ (∀ n : ℕ, wait_exponential n ≤ 10)
    ∧ (∀ n m : ℕ, n ≤ m → wait_exponential n ≤ wait_exponential m)
    ∧ (∀ (encode : List String → Except Exc (List (List ℚ)))
        (texts : List String),
        api_retry (fun _ => Except.ok (embed_with_jina encode texts))
          = (Except.ok (embed_with_jina encode texts), 1)) := by
  refine ⟨?_, ?_, ?_, ?_, ?_, ?_⟩
  · intro f e hf hte
    simp [api_retry, apiRetryGo, hf, hte]
  · intro f
    have h2 := apiRetryGo_attempts_le f 2 1
    show (apiRetryGo f 1 2).2 ≤ 3
    omega
  · intro f e1 e2 e3 h1 h2 h3 ht1 ht2
    simp [api_retry, apiRetryGo, h1, h2, h3, ht1, ht2]
  · intro n
    rw [wait_exponential]
    generalize 2 ^ (n - 1) = k
    omega
  · intro n m hnm
    have hpow : 2 ^ (n - 1) ≤ 2 ^ (m - 1) :=
      Nat.pow_le_pow_right (by norm_num) (by omega)
    rw [wait_exponential, wait_exponential]
    omega
  · intro encode texts
    simp [api_retry, apiRetryGo]

/-- C7 witness: a call that raises a non-transient (authentication) error on
its first attempt is not retried: the error is re-raised after exactly one
attempt. -/
theorem c7_witness :
    api_retry (fun _ => Except.error Exc.authError :
        ℕ → Except Exc (List (List ℚ)))
      = (Except.error Exc.authError, 1) :=
  c7_api_retry_policy.1 (fun _ => Except.error Exc.authError)
    Exc.authError rfl rfl

/-! ## Vector index collection (`EmbeddingAgent._ensure_collection`)

The Qdrant server state is modelled as the list of existing collections.
`_ensure_collection` lists the collection names (an exception while listing
is swallowed and yields the empty name list, modelled by `listFails`), and
creates the collection with the configured dimension and cosine distance only
when its name is absent. The `Except` result type records that the code has
no error path of its own: it returns successfully whatever the existing
collection's dimension is. -/

inductive Distance where
  | cosine : Distance
deriving DecidableEq, Repr

structure CollectionInfo where
  name : String
  dim : ℕ
  metric : Distance
deriving DecidableEq, Repr

def ensure_collection (listFails : Bool) (s : List CollectionInfo) :
    Except Exc (List CollectionInfo) :=
  let names := if listFails then [] else s.map fun c => c.name
  if QDRANT_COLLECTION ∈ names then Except.ok s
  else Except.ok (s ++ [⟨QDRANT_COLLECTION, EMBEDDING_DIM, Distance.cosine⟩])

theorem ensure_collection_false (s : List CollectionInfo) :
    ensure_collection false s
      = if QDRANT_COLLECTION ∈ s.map (fun c => c.name) then Except.ok s
        else Except.ok
          (s ++ [⟨QDRANT_COLLECTION, EMBEDDING_DIM, Distance.cosine⟩]) := rfl

theorem ensure_collection_true (s : List CollectionInfo) :
    ensure_collection true s
      = Except.ok
          (s ++ [⟨QDRANT_COLLECTION, EMBEDDING_DIM, Distance.cosine⟩]) := rfl

/-- C2 counterexample: with an existing collection named "repo_chunks" of
dimension 7 ≠ 1024, `_ensure_collection` silently succeeds without touching
the collection and without raising any configuration error. -/
theorem c2_counterexample :
    ensure_collection false [⟨"repo_chunks", 7, Distance.cosine⟩]
      = Except.ok [⟨"repo_chunks", 7, Distance.cosine⟩]
    ∧ (7 : ℕ) ≠ EMBEDDING_DIM := by
  constructor
  · rw [ensure_collection_false, if_pos (by simp [QDRANT_COLLECTION])]
  · decide

/-- C2 (amended): `_ensure_collection` is idempotent and creates the
collection — with the configured dimension and cosine metric — only when a
collection of that name is absent; but when a collection of the same name
already exists with a different dimension it silently succeeds without any
check: the code never raises a configuration error. -/
theorem c2_ensure_collection (s : List CollectionInfo) :
    (QDRANT_COLLECTION ∈ s.map (fun c => c.name) →
        ensure_collection false s = Except.ok s)
    ∧ (QDRANT_COLLECTION ∉ s.map (fun c => c.name) →
        ensure_collection false s
          = Except.ok
              (s ++ [⟨QDRANT_COLLECTION, EMBEDDING_DIM, Distance.cosine⟩]))
    ∧ (∀ s1, ensure_collection false s = Except.ok s1 →
        ensure_collection false s1 = Except.ok s1)
    ∧ (∀ b, ∃ s2, ensure_collection b s = Except.ok s2) := by
  refine ⟨?_, ?_, ?_, ?_⟩
  · intro h
    rw [ensure_collection_false, if_pos h]
  · intro h
    rw [ensure_collection_false, if_neg h]
  · intro s1 h1
    by_cases h : QDRANT_COLLECTION ∈ s.map (fun c => c.name)
    · rw [ensure_collection_false, if_pos h] at h1
      injection h1 with h1
      rw [← h1, ensure_collection_false, if_pos h]
    · rw [ensure_collection_false, if_neg h] at h1
      injection h1 with h1
      have hmem : QDRANT_COLLECTION ∈ (s ++
          [(⟨QDRANT_COLLECTION, EMBEDDING_DIM, Distance.cosine⟩ :
            CollectionInfo)]).map (fun c => c.name) := by
        simp
      rw [← h1, ensure_collection_false, if_pos hmem]
  · intro b
    cases b
    · by_cases h : QDRANT_COLLECTION ∈ s.map (fun c => c.name)
      · exact ⟨s, by rw [ensure_collection_false, if_pos h]⟩
      · exact ⟨s ++ [⟨QDRANT_COLLECTION, EMBEDDING_DIM, Distance.cosine⟩],
          by rw [ensure_collection_false, if_neg h]⟩
    · exact ⟨s ++ [⟨QDRANT_COLLECTION, EMBEDDING_DIM, Distance.cosine⟩],
        ensure_collection_true s⟩

/-- C2 witness: on an empty server state the collection is created with the
configured dimension and the cosine metric. -/
theorem c2_witness :
    ensure_collection false []
      = Except.ok [⟨QDRANT_COLLECTION, EMBEDDING_DIM, Distance.cosine⟩] :=
  (c2_ensure_collection []).2.1 (by simp)

/-! ## Batched ingestion (`EmbeddingAgent.add_texts`) -/

/-- The payload `PointStruct(..., payload=(*text* : txt) merged with meta)`
of an upserted point: a Python dict literal in which the metadata entries
override the initial "text" key. Represented as an association list read by
`List.lookup` (first match wins), so the initial ("text", txt) pair is kept
only when the metadata does not itself bind "text". -/
def mergedPayload (txt : String) (meta : List (String × String)) :
    List (String × String) :=
  (if (meta.lookup "text").isSome then [] else [("text", txt)]) ++ meta

/-- An upserted point. The random `uuid.uuid4()` id is never consulted by
the specification claims and is omitted. -/
structure Point where
  vector : List ℚ
  payload : List (String × String)
deriving DecidableEq, Repr

/-- The batch loop `for i in range(0, len(text_chunks), batch_size)` of
`add_texts`: embed each batch, build its points, upsert it. The oracle
`upsertFail` gives the exception raised by `qdrant.upsert` on batch `b`
(`none` = success); a raised exception aborts the loop — the failing
batch's points are not recorded as upserted and the exception propagates in
the second component, alongside the points upserted before the failure. A
zero `batch_size` makes Python's `range` raise `ValueError`; that
configuration is excluded by the guard. -/
def addTextsGo (embed : List String → List (List ℚ))
    (upsertFail : ℕ → Option Exc) (bs b : ℕ) (chunks : List String)
    (metas : List (List (String × String))) : List Point × Option Exc :=
  if h : chunks = [] ∨ bs = 0 then ([], none)
  else
    let bt := chunks.take bs
    let bm := metas.take bs
    let vecs := embed bt
    let pts := (vecs.zip (bt.zip bm)).map
      fun q => (⟨q.1, mergedPayload q.2.1 q.2.2⟩ : Point)
    match upsertFail b with
    | some e => ([], some e)
    | none =>
      let r := addTextsGo embed upsertFail bs (b + 1)
        (chunks.drop bs) (metas.drop bs)
      (pts ++ r.1, r.2)
termination_by chunks.length
decreasing_by
  push_neg at h
  have hpos : 0 < chunks.length := List.length_pos.mpr h.1
  simp only [List.length_drop]
  omega

/-- `add_texts(text_chunks, metadata_list=None, batch_size=32)`. The line
`metadata_list = metadata_list or [` dict `() for _ in text_chunks]` treats
both `None` and an EMPTY provided list as falsy, replacing either with one
empty metadata dict per chunk. -/
def add_texts (embed : List String → List (List ℚ))
    (upsertFail : ℕ → Option Exc) (chunks : List String)
    (metaOpt : Option (List (List (String × String)))) (bs : ℕ := 32) :
    List Point × Option Exc :=
  let metas := match metaOpt with
    | some (m :: ms) => m :: ms
    | _ => chunks.map fun _ => []
  addTextsGo embed upsertFail bs 0 chunks metas

theorem addTextsGo_stop (embed : List String → List (List ℚ))
    (upsertFail : ℕ → Option Exc) (bs b : ℕ) (chunks : List String)
    (metas : List (List (String × String)))
    (h : chunks = [] ∨ bs = 0) :
    addTextsGo embed upsertFail bs b chunks metas = ([], none) := by
  rw [addTextsGo, dif_pos h]

theorem addTextsGo_fail (embed : List String → List (List ℚ))
    (upsertFail : ℕ → Option Exc) (bs b : ℕ) (chunks : List String)
    (metas : List (List (String × String))) (e : Exc)
    (h : ¬ (chunks = [] ∨ bs = 0)) (he : upsertFail b = some e) :
    addTextsGo embed upsertFail bs b chunks metas = ([], some e) := by
  rw [addTextsGo, dif_neg h]
  simp [he]

theorem addTextsGo_ok (embed : List String → List (List ℚ))
    (upsertFail : ℕ → Option Exc) (bs b : ℕ) (chunks : List String)
    (metas : List (List (String × String)))
    (h : ¬ (chunks = [] ∨ bs = 0)) (he : upsertFail b = none) :
    addTextsGo embed upsertFail bs b chunks metas
      = (((embed (chunks.take bs)).zip
            ((chunks.take bs).zip (metas.take bs))).map
          (fun q => (⟨q.1, mergedPayload q.2.1 q.2.2⟩ : Point))
          ++ (addTextsGo embed upsertFail bs (b + 1) (chunks.drop bs)
              (metas.drop bs)).1,
         (addTextsGo embed upsertFail bs (b + 1) (chunks.drop bs)
            (metas.drop bs)).2) := by
  rw [addTextsGo, dif_neg h]
  simp [he]

theorem addTextsGo_count (embed : List String → List (List ℚ))
    (bs : ℕ) (hbs : 0 < bs)
    (hembed : ∀ l, (embed l).length = l.length) :
    ∀ (n : ℕ) (chunks : List String)
      (metas : List (List (String × String))) (b : ℕ),
      chunks.length ≤ n →
      (addTextsGo embed (fun _ => none) bs b chunks metas).1.length
          = min chunks.length metas.length
        ∧ (addTextsGo embed (fun _ => none) bs b chunks metas).2 = none := by
  intro n
  induction n with
  | zero =>
    intro chunks metas b hn
    have hnil : chunks = [] := List.length_eq_zero.mp (by omega)
    rw [addTextsGo_stop _ _ _ _ _ _ (Or.inl hnil), hnil]
    simp
  | succ n ih =>
    intro chunks metas b hn
    by_cases hnil : chunks = []
    · rw [addTextsGo_stop _ _ _ _ _ _ (Or.inl hnil), hnil]
      simp
    · have hguard : ¬ (chunks = [] ∨ bs = 0) := by
        push_neg
        exact ⟨hnil, by omega⟩
      have hpos : 0 < chunks.length := List.length_pos.mpr hnil
      have hrec := ih (chunks.drop bs) (metas.drop bs) (b + 1)
        (by simp only [List.length_drop]; omega)
      rw [addTextsGo_ok _ _ _ _ _ _ hguard rfl]
      refine ⟨?_, hrec.2⟩
      simp only [List.length_append, List.length_map, List.length_zip,
        List.length_take, List.length_drop, hembed, hrec.1]
      omega

theorem zip_take_drop {α β : Type} :
    ∀ (n : ℕ) (a : List α) (b : List β),
      (a.take n).zip (b.take n) ++ (a.drop n).zip (b.drop n) = a.zip b := by
  intro n
  induction n with
  | zero => intro a b; simp
  | succ n ih =>
    intro a b
    cases a with
    | nil => simp
    | cons x a2 =>
      cases b with
      | nil => simp
      | cons y b2 =>
        simp only [List.take_succ_cons, List.drop_succ_cons, List.zip_cons_cons,
          List.cons_append]
        rw [ih]

theorem map_of_zip_snd {γ : Type} (f : String × List (String × String) → γ) :
    ∀ (vs : List (List ℚ)) (w : List (String × List (String × String))),
      w.length ≤ vs.length →
      (vs.zip w).map (fun q => f q.2) = w.map f := by
  intro vs
  induction vs with
  | nil =>
    intro w hw
    have : w = [] := List.length_eq_zero.mp (by simpa using hw)
    rw [this]
    simp
  | cons v vs2 ih =>
    intro w hw
    cases w with
    | nil => simp
    | cons p w2 =>
      simp only [List.zip_cons_cons, List.map_cons]
      rw [ih w2 (by simpa using hw)]

theorem addTextsGo_payloads (embed : List String → List (List ℚ))
    (bs : ℕ) (hbs : 0 < bs)
    (hembed : ∀ l, (embed l).length = l.length) :
    ∀ (n : ℕ) (chunks : List String)
      (metas : List (List (String × String))) (b : ℕ),
      chunks.length ≤ n →
      ((addTextsGo embed (fun _ => none) bs b chunks metas).1).map Point.payload
        = (chunks.zip metas).map fun q => mergedPayload q.1 q.2 := by
  intro n
  induction n with
  | zero =>
    intro chunks metas b hn
    have hnil : chunks = [] := List.length_eq_zero.mp (by omega)
    rw [addTextsGo_stop _ _ _ _ _ _ (Or.inl hnil), hnil]
    simp
  | succ n ih =>
    intro chunks metas b hn
    by_cases hnil : chunks = []
    · rw [addTextsGo_stop _ _ _ _ _ _ (Or.inl hnil), hnil]
      simp
    · have hguard : ¬ (chunks = [] ∨ bs = 0) := by
        push_neg
        exact ⟨hnil, by omega⟩
      have hpos : 0 < chunks.length := List.length_pos.mpr hnil
      rw [addTextsGo_ok _ _ _ _ _ _ hguard rfl, List.map_append]
      have hbatch : (((embed (chunks.take bs)).zip
            ((chunks.take bs).zip (metas.take bs))).map
          (fun q => (⟨q.1, mergedPayload q.2.1 q.2.2⟩ : Point))).map Point.payload
          = ((chunks.take bs).zip (metas.take bs)).map
              fun q => mergedPayload q.1 q.2 := by
        rw [List.map_map]
        exact map_of_zip_snd (fun q => mergedPayload q.1 q.2)
          (embed (chunks.take bs)) ((chunks.take bs).zip (metas.take bs))
          (by
            rw [List.length_zip, hembed]
            exact min_le_left _ _)
      rw [hbatch, ih (chunks.drop bs) (metas.drop bs) (b + 1)
        (by simp only [List.length_drop]; omega)]
      rw [← List.map_append, zip_take_drop]

theorem add_texts_def (embed : List String → List (List ℚ))
    (upsertFail : ℕ → Option Exc) (chunks : List String)
    (metaOpt : Option (List (List (String × String)))) (bs : ℕ) :
    add_texts embed upsertFail chunks metaOpt bs
      = addTextsGo embed upsertFail bs 0 chunks
          (match metaOpt with
            | some (m :: ms) => m :: ms
            | _ => chunks.map fun _ => []) := rfl

/-- C9: every upserted point's payload is the "text"-to-chunk-text binding
merged with the chunk's metadata dict, metadata keys taking precedence: the
payloads produced by the batch loop pair each chunk with its positional
metadata dict; when a metadata dict itself binds "text", the stored payload's
"text" is the metadata's value and the chunk text is silently lost; otherwise
the payload's "text" is the chunk text and every metadata entry is stored
alongside it. -/
theorem c9_payload_semantics :
    (∀ (embed : List String → List (List ℚ)) (bs : ℕ)
        (chunks : List String) (metas : List (List (String × String)))
        (b : ℕ), 0 < bs → (∀ l, (embed l).length = l.length) →
        ((addTextsGo embed (fun _ => none) bs b chunks metas).1).map
            Point.payload
          = (chunks.zip metas).map fun q => mergedPayload q.1 q.2)
    ∧ (∀ (txt : String) (meta : List (String × String)) (v : String),
        meta.lookup "text" = some v →
        (mergedPayload txt meta).lookup "text" = some v)
    ∧ (∀ (txt : String) (meta : List (String × String)),
        meta.lookup "text" = none →
        (mergedPayload txt meta).lookup "text" = some txt
        ∧ ∀ (k v : String), meta.lookup k = some v →
            (mergedPayload txt meta).lookup k = some v) := by
  refine ⟨?_, ?_, ?_⟩
  · intro embed bs chunks metas b hbs hembed
    exact addTextsGo_payloads embed bs hbs hembed chunks.length chunks
      metas b le_rfl
  · intro txt meta v h
    simp [mergedPayload, h]
  · intro txt meta h
    constructor
    · simp [mergedPayload, h, List.lookup]
    · intro k v hkv
      by_cases hk : k = "text"
      · rw [hk] at hkv
        rw [hkv] at h
        simp at h
      · have hbeq : (k == "text") = false := by
          simp [hk]
        simp [mergedPayload, h, List.lookup, hbeq, hkv]

/-- C9 witness: one chunk "a" with metadata dict `(k, v)`: the upserted
payload is the merged dict, whose "text" is the chunk text and which carries
the metadata entry. -/
theorem c9_witness :
    ((addTextsGo (fun l => l.map fun _ => [(0 : ℚ)]) (fun _ => none) 1 0
        ["a"] [[("k", "v")]]).1).map Point.payload
      = (["a"].zip [[("k", "v")]]).map (fun q => mergedPayload q.1 q.2) :=
  c9_payload_semantics.1 (fun l => l.map fun _ => [(0 : ℚ)]) 1 ["a"]
    [[("k", "v")]] 0 (by norm_num) (by intro l; simp)

/-- C10 counterexample: the claim quantifies over every provided
`metadata_list` shorter than `text_chunks`, but the line
`metadata_list = metadata_list or [...]` treats an EMPTY provided list as
falsy and replaces it with one empty dict per chunk: with one chunk and a
provided empty metadata list, one point is upserted, not `min(1, 0) = 0`. -/
theorem c10_counterexample :
    (add_texts (fun l => l.map fun _ => [(0 : ℚ)]) (fun _ => none)
        ["a"] (some []) 32).1.length = 1
    ∧ (1 : ℕ) ≠ min 1 0 := by
  constructor
  · have hc := addTextsGo_count (fun l => l.map fun _ => [(0 : ℚ)]) 32
      (by norm_num) (by intro l; simp) 1 ["a"] [[]] 0 (by simp)
    rw [add_texts_def]
    exact hc.1
  · decide

/-- C10 (amended): when a NON-EMPTY `metadata_list` shorter than
`text_chunks` is provided, exactly `min(len(text_chunks),
len(metadata_list))` points are upserted: the chunks beyond the metadata
length are silently dropped by the per-batch `zip` truncation, no error is
raised and the loop runs to completion. (A provided EMPTY metadata list is
falsy in `metadata_list or ...` and is replaced by one empty dict per chunk,
so then every chunk is upserted.) -/
theorem c10_zip_truncation (embed : List String → List (List ℚ))
    (chunks : List String) (m0 : List (String × String))
    (ms : List (List (String × String))) (bs : ℕ)
    (hbs : 0 < bs) (hembed : ∀ l, (embed l).length = l.length)
    (hshort : (m0 :: ms).length < chunks.length) :
    (add_texts embed (fun _ => none) chunks (some (m0 :: ms)) bs).1.length
        = min chunks.length (m0 :: ms).length
    ∧ (add_texts embed (fun _ => none) chunks (some (m0 :: ms)) bs).2
        = none := by
  have h := addTextsGo_count embed bs hbs hembed chunks.length chunks
    (m0 :: ms) 0 le_rfl
  rw [add_texts_def]
  exact h

/-- C10 witness: three chunks with a single metadata dict (batch size 2):
exactly `min(3, 1) = 1` point is upserted and no error is raised. -/
theorem c10_witness :
    (add_texts (fun l => l.map fun _ => [(0 : ℚ)]) (fun _ => none)
        ["a", "b", "c"] (some [[("k", "v")]]) 2).1.length = min 3 1
    ∧ (add_texts (fun l => l.map fun _ => [(0 : ℚ)]) (fun _ => none)
        ["a", "b", "c"] (some [[("k", "v")]]) 2).2 = none :=
  c10_zip_truncation (fun l => l.map fun _ => [(0 : ℚ)]) ["a", "b", "c"]
    [("k", "v")] [] 2 (by norm_num) (by intro l; simp) (by simp)

/-- C3 counterexample: two one-chunk batches with an upsert oracle whose
batch 0 raises: `add_texts` aborts at once — the exception propagates, no
point (in particular none from the second batch) is upserted, and no
succeeded/failed counts are reported. -/
theorem c3_counterexample :
    add_texts (fun l => l.map fun _ => [(0 : ℚ)])
        (fun _ => some Exc.requestException) ["a", "b"] (some [[], []]) 1
      = ([], some Exc.requestException) := by
  rw [add_texts_def]
  exact addTextsGo_fail _ _ _ _ _ _ _ (by simp) rfl

/-- C3 (amended): the batch loop is sequential and aborts on the first
failure: when the first batch's upsert raises, the exception propagates to
the caller bare — nothing is upserted, the remaining batches are never
processed, and no partial-success counts are returned; only when every
upsert succeeds does the loop process all batches and finish without
error. -/
theorem c3_abort_on_first_failure :
    (∀ (embed : List String → List (List ℚ)) (upsertFail : ℕ → Option Exc)
        (chunks : List String)
        (metaOpt : Option (List (List (String × String)))) (bs : ℕ)
        (e : Exc), 0 < bs → chunks ≠ [] → upsertFail 0 = some e →
        add_texts embed upsertFail chunks metaOpt bs = ([], some e))
    ∧ (∀ (embed : List String → List (List ℚ)) (chunks : List String)
        (metas : List (List (String × String))) (bs : ℕ),
        0 < bs → (∀ l, (embed l).length = l.length) →
        (addTextsGo embed (fun _ => none) bs 0 chunks metas).2 = none) := by
  constructor
  · intro embed upsertFail chunks metaOpt bs e hbs hne hfail
    rw [add_texts_def]
    refine addTextsGo_fail _ _ _ _ _ _ _ ?_ hfail
    push_neg
    exact ⟨hne, by omega⟩
  · intro embed chunks metas bs hbs hembed
    exact (addTextsGo_count embed bs hbs hembed chunks.length chunks
      metas 0 le_rfl).2

/-- C3 witness: a single batch whose upsert raises a timeout: the exception
is surfaced bare and nothing is upserted. -/
theorem c3_witness :
    add_texts (fun l => l.map fun _ => [(0 : ℚ)])
        (fun _ => some Exc.timeoutError) ["a"] none 32
      = ([], some Exc.timeoutError) :=
  c3_abort_on_first_failure.1 (fun l => l.map fun _ => [(0 : ℚ)])
    (fun _ => some Exc.timeoutError) ["a"] none 32 Exc.timeoutError
    (by norm_num) (by simp) rfl

/-! ## Query engine (`QAAgent.answer`, `src/agents/qa_agent.py`)

`answer(query, top_k=5)` searches, joins the hit payload texts with a blank
line in the returned order, builds the prompt, calls `co.chat(...)` once and
returns `resp.text.strip()`. The remote search result is modelled as the
list of hits; the generation backend `co.chat` as an oracle from the prompt
to a response or an exception. -/

structure Hit where
  payload : List (String × String)
  score : Option ℚ
deriving DecidableEq, Repr

/-- `"\n\n".join([h["payload"].get("text", "") for h in hits])`. -/
def qa_context (hits : List Hit) : String :=
  String.intercalate "\n\n"
    (hits.map fun h => (h.payload.lookup "text").getD "")

def qa_prompt (context query : String) : String :=
  "Using the context below, answer the question concisely.\n\nContext:\n"
    ++ context ++ "\n\nQuestion: " ++ query ++ "\n\nAnswer:"

def answer (chat : String → Except Exc String) (hits : List Hit)
    (query : String) : Except Exc String :=
  match chat (qa_prompt (qa_context hits) query) with
  | Except.error e => Except.error e
  | Except.ok t => Except.ok t.trim

/-- C6: the grounding context is the hit payload texts joined, in the order
the search returned them, by a blank line; the returned answer is the
generation backend's text trimmed of surrounding whitespace; and a failure of
the single generation call propagates to the caller unchanged — the query
engine performs no retry of its own. -/
theorem c6_answer_semantics (chat : String → Except Exc String)
    (hits : List Hit) (query : String) :
    qa_context hits
      = String.intercalate "\n\n"
          (hits.map fun h => (h.payload.lookup "text").getD "")
    ∧ (∀ e : Exc, chat (qa_prompt (qa_context hits) query) = Except.error e →
        answer chat hits query = Except.error e)
    ∧ (∀ r : String, chat (qa_prompt (qa_context hits) query) = Except.ok r →
        answer chat hits query = Except.ok r.trim) := by
  refine ⟨rfl, ?_, ?_⟩
  · intro e he
    simp [answer, he]
  · intro r hr
    simp [answer, hr]

/-- C6 witness: with a generation backend that raises a timeout, `answer`
propagates exactly that error. -/
theorem c6_witness :
    answer (fun _ => Except.error Exc.timeoutError)
        [⟨[("text", "A")], none⟩] "q"
      = Except.error Exc.timeoutError :=
  (c6_answer_semantics (fun _ => Except.error Exc.timeoutError)
    [⟨[("text", "A")], none⟩] "q").2.1 Exc.timeoutError rfl

end RepoApp
